import Mathlib

/-!
Verification of the capacity-aware record partitioner implemented by the
`AttachmentControl` class in `src/AttachmentControl/index.ts`.

The embedding models JavaScript strings as `List Char` and the JavaScript
`String.prototype.length` (UTF-16 code units) as `jlen`.  `JSON.stringify`
of a `\x7b name, data \x7d` record array — the only shape this program ever
serializes — is modelled by `stringifyList`, including JSON string escaping.
`JSON.parse` is modelled by `parseRecords`, restricted to the canonical
whitespace-free texts `JSON.stringify` emits for this record-array shape
(on any other text the real `JSON.parse` may also succeed, but every text
this program feeds back to itself is canonical; a text `parseRecords`
rejects models a thrown parse error).  `substring` is modelled by
`utf16Take`/`utf16Drop`, which walk UTF-16 budgets; the only divergence
from JavaScript is an astral character sitting exactly on a split
boundary, where JavaScript would cut a surrogate pair in half (the data
payloads here are base64 data URLs, which are ASCII).
-/

/-- One uploaded file record, `fileBase64List`'s element type in the source:
a file name together with its base64 data-URL payload. -/
structure FileRecord where
  name : List Char
  data : List Char
deriving DecidableEq, Repr

/-- The two persisted slot values returned by `getOutputs`: the main field
text and the optional overflow field text (absent models `undefined`). -/
structure IOutputs where
  uploadedFile : List Char
  uploadedFileOverflow : Option (List Char)
deriving DecidableEq, Repr

/-- The JSON quote character. -/
def quoteChar : Char := Char.ofNat 34

/-- The JSON escape (backslash) character. -/
def backslashChar : Char := Char.ofNat 92

/-- Opening brace of a JSON object. -/
def lbraceChar : Char := Char.ofNat 123

/-- Closing brace of a JSON object. -/
def rbraceChar : Char := Char.ofNat 125

/-- Number of UTF-16 code units of a character, so that `jlen` matches the
JavaScript `String.prototype.length` the source compares against 1000000. -/
def utf16Size (c : Char) : Nat := if c.toNat < 65536 then 1 else 2

/-- JavaScript string length (UTF-16 code units) of a modelled string. -/
def jlen (l : List Char) : Nat := (l.map utf16Size).sum

/-- Lowercase hexadecimal digit, as emitted by `JSON.stringify` escapes. -/
def hexDigitChar (n : Nat) : Char :=
  if n < 10 then Char.ofNat (48 + n) else Char.ofNat (87 + n)

/-- JSON escaping of one character, following `JSON.stringify`: quote and
backslash get a backslash escape, the named control characters get their
short escapes, the remaining control characters get a `u00XX` escape, and
every other character stands for itself. -/
def escapeChar (c : Char) : List Char :=
  if c = quoteChar then [backslashChar, quoteChar]
  else if c = backslashChar then [backslashChar, backslashChar]
  else if c = Char.ofNat 8 then [backslashChar, 'b']
  else if c = Char.ofNat 9 then [backslashChar, 't']
  else if c = Char.ofNat 10 then [backslashChar, 'n']
  else if c = Char.ofNat 12 then [backslashChar, 'f']
  else if c = Char.ofNat 13 then [backslashChar, 'r']
  else if c.toNat < 32 then
    [backslashChar, 'u', '0', '0', hexDigitChar (c.toNat / 16), hexDigitChar (c.toNat % 16)]
  else [c]

/-- JSON escaping of a whole string body. -/
def escapeString (l : List Char) : List Char := (l.map escapeChar).flatten

/-- A JSON string literal: quote, escaped body, quote. -/
def quoteString (l : List Char) : List Char :=
  quoteChar :: (escapeString l ++ [quoteChar])

/-- The characters `"name":` of the serialized record. -/
def nameKeyChars : List Char := [quoteChar, 'n', 'a', 'm', 'e', quoteChar, ':']

/-- The characters `,"data":` of the serialized record. -/
def dataKeyChars : List Char := [',', quoteChar, 'd', 'a', 't', 'a', quoteChar, ':']

/-- `JSON.stringify` of one record object, field order `name` then `data`
as the source always constructs records. -/
def stringifyRecord (f : FileRecord) : List Char :=
  lbraceChar ::
    (nameKeyChars ++ quoteString f.name ++ dataKeyChars ++ quoteString f.data ++ [rbraceChar])

/-- The comma-joined members of a stringified array. -/
def stringifyItems : List FileRecord → List Char
  | [] => []
  | [f] => stringifyRecord f
  | f :: g :: l => stringifyRecord f ++ ',' :: stringifyItems (g :: l)

/-- `JSON.stringify` of a record array. -/
def stringifyList (l : List FileRecord) : List Char :=
  '[' :: (stringifyItems l ++ [']'])

/-- Value of one hexadecimal digit character, if it is one. -/
def hexVal (c : Char) : Option Nat :=
  if 48 ≤ c.toNat ∧ c.toNat ≤ 57 then some (c.toNat - 48)
  else if 97 ≤ c.toNat ∧ c.toNat ≤ 102 then some (c.toNat - 87)
  else if 65 ≤ c.toNat ∧ c.toNat ≤ 70 then some (c.toNat - 55)
  else none

/-- Meaning of a single-character JSON escape, if valid. -/
def unescapeChar (c : Char) : Option Char :=
  if c = quoteChar then some quoteChar
  else if c = backslashChar then some backslashChar
  else if c = '/' then some '/'
  else if c = 'b' then some (Char.ofNat 8)
  else if c = 't' then some (Char.ofNat 9)
  else if c = 'n' then some (Char.ofNat 10)
  else if c = 'f' then some (Char.ofNat 12)
  else if c = 'r' then some (Char.ofNat 13)
  else none

/-- Parse the body of a JSON string literal after its opening quote, up to
and including the closing quote, returning body and remaining input. -/
def parseStringBody : List Char → Option (List Char × List Char)
  | [] => none
  | c :: rest =>
    if c = quoteChar then some ([], rest)
    else if c = backslashChar then
      match rest with
      | [] => none
      | e :: rest2 =>
        if e = 'u' then
          match rest2 with
          | h1 :: h2 :: h3 :: h4 :: rest6 =>
            match hexVal h1, hexVal h2, hexVal h3, hexVal h4 with
            | some a, some b, some c1, some d =>
              let n := ((a * 16 + b) * 16 + c1) * 16 + d
              if n < 55296 ∨ 57344 ≤ n then
                match parseStringBody rest6 with
                | some (body, r) => some (Char.ofNat n :: body, r)
                | none => none
              else none
            | _, _, _, _ => none
          | _ => none
        else
          match unescapeChar e with
          | some c2 =>
            match parseStringBody rest2 with
            | some (body, r) => some (c2 :: body, r)
            | none => none
          | none => none
    else
      match parseStringBody rest with
      | some (body, r) => some (c :: body, r)
      | none => none

/-- Parse a JSON string literal including its opening quote. -/
def parseJSONString (l : List Char) : Option (List Char × List Char) :=
  match l with
  | [] => none
  | c :: rest => if c = quoteChar then parseStringBody rest else none

/-- Consume an expected literal character sequence. -/
def stripPrefixChars : List Char → List Char → Option (List Char)
  | [], l => some l
  | _ :: _, [] => none
  | a :: p, b :: l => if a = b then stripPrefixChars p l else none

/-- Parse one canonical `\x7b"name":…,"data":…\x7d` record object. -/
def parseRecord (l : List Char) : Option (FileRecord × List Char) :=
  match l with
  | [] => none
  | c :: rest =>
    if c = lbraceChar then
      match stripPrefixChars nameKeyChars rest with
      | none => none
      | some r1 =>
        match parseJSONString r1 with
        | none => none
        | some (nm, r2) =>
          match stripPrefixChars dataKeyChars r2 with
          | none => none
          | some r3 =>
            match parseJSONString r3 with
            | none => none
            | some (dt, r4) =>
              match r4 with
              | [] => none
              | c2 :: r5 => if c2 = rbraceChar then some (⟨nm, dt⟩, r5) else none
    else none

/-- Parse the comma-separated members of a nonempty record array, requiring
the closing bracket to end the input (as `JSON.parse` rejects trailing
text).  Fuel bounds the recursion; each member consumes input. -/
def parseItems : Nat → List Char → Option (List FileRecord)
  | 0, _ => none
  | fuel + 1, l =>
    match parseRecord l with
    | none => none
    | some (f, r) =>
      match r with
      | [] => none
      | c :: r2 =>
        if c = ',' then
          match parseItems fuel r2 with
          | some fs => some (f :: fs)
          | none => none
        else if c = ']' then
          if r2 = [] then some [f] else none
        else none

/-- `JSON.parse` of a full slot text, restricted to the canonical record
array texts this program writes; `none` models a thrown `SyntaxError`. -/
def parseRecords (l : List Char) : Option (List FileRecord) :=
  match l with
  | [] => none
  | c :: rest =>
    if c = '[' then
      match rest with
      | [] => none
      | c2 :: r2 =>
        if c2 = ']' ∧ r2 = [] then some [] else parseItems l.length rest
    else none

/-- JavaScript truthiness of a nullable string field value: `null`,
`undefined` and the empty string are falsy. -/
def truthy : Option (List Char) → Bool
  | none => false
  | some l => !l.isEmpty

/-- `substring (0, n)` in UTF-16 code units (prefix of budget `n`). -/
def utf16Take : Nat → List Char → List Char
  | _, [] => []
  | n, c :: rest => if utf16Size c ≤ n then c :: utf16Take (n - utf16Size c) rest else []

/-- `substring (n)` in UTF-16 code units (suffix after budget `n`). -/
def utf16Drop : Nat → List Char → List Char
  | _, [] => []
  | n, c :: rest => if utf16Size c ≤ n then utf16Drop (n - utf16Size c) rest else c :: rest

/-- The greedy packing loop shared by `getCurrentOverflow` (lines 179-195)
and the distribution phase of `getOutputs` (lines 493-521): walk the
records with a running `currentLength`, test
`currentLength + JSON.stringify(file).length + 1 <= 1000000`, accept into
the first list and advance the counter on success, push to the second
list otherwise.  In `getOutputs` the two `forEach` loops over
`mergedFiles` and `remainingFiles` share one counter and one pair of
arrays, which is exactly one pass over their concatenation. -/
def packFold : List FileRecord → Nat → List FileRecord × List FileRecord
  | [], _ => ([], [])
  | f :: rest, currentLength =>
    let testLength := currentLength + jlen (stringifyRecord f) + 1
    if testLength ≤ 1000000 then
      let p := packFold rest testLength
      (f :: p.1, p.2)
    else
      let p := packFold rest currentLength
      (p.1, f :: p.2)

/-- `getCurrentOverflow` (lines 173-196): if the whole list serializes
within the limit there is no overflow, otherwise the records the greedy
pass pushes past the limit. -/
def getCurrentOverflow (l : List FileRecord) : List FileRecord :=
  if jlen (stringifyList l) ≤ 1000000 then []
  else (packFold l 0).2

/-- The admission logic of `processFile` (lines 121-169), after the
external validation and base64 encoding have produced the record fields:
returns the new store on success, `none` when the capacity alert fires
(in which case the source leaves `fileBase64List` untouched). -/
def processFile (store : List FileRecord) (name fileData : List Char) :
    Option (List FileRecord) :=
  let newFile : FileRecord := ⟨name, fileData⟩
  if jlen (stringifyList (store ++ [newFile])) ≤ 1000000 then
    some (store ++ [newFile])
  else
    let remainingSpace := 1000000 - jlen (stringifyList store)
    if 0 < remainingSpace then
      let splitPoint := remainingSpace / 2
      let part1 := utf16Take splitPoint fileData
      let part2 := utf16Drop splitPoint fileData
      if jlen (stringifyList (store ++ [⟨name, part1⟩])) ≤ 1000000 then
        if jlen (stringifyList (getCurrentOverflow store ++ [⟨name, part2⟩])) ≤ 1000000 then
          some (store ++ [⟨name, part1⟩, ⟨name, part2⟩])
        else none
      else none
    else none

/-- Insert a record into the name-keyed group list, preserving the JS
`Map` insertion order and within-group push order (lines 448-453). -/
def insertGroup (gs : List (List Char × List FileRecord)) (f : FileRecord) :
    List (List Char × List FileRecord) :=
  match gs with
  | [] => [(f.name, [f])]
  | (n, fs) :: rest =>
    if n = f.name then (n, fs ++ [f]) :: rest else (n, fs) :: insertGroup rest f

/-- `fileGroups`: group the store by name in first-seen order. -/
def groupByName (l : List FileRecord) : List (List Char × List FileRecord) :=
  l.foldl insertGroup []

/-- One step of the merge loop of `getOutputs` (lines 456-482), acting on
the accumulated `(mergedFiles, remainingFiles)` pair. -/
def mergeStep (acc : List FileRecord × List FileRecord)
    (g : List Char × List FileRecord) : List FileRecord × List FileRecord :=
  if 1 < g.2.length then
    let mergedFile : FileRecord := ⟨g.1, (g.2.map FileRecord.data).flatten⟩
    if jlen (stringifyList (acc.1 ++ [mergedFile])) ≤ 1000000 then
      (acc.1 ++ [mergedFile], acc.2)
    else
      (acc.1, acc.2 ++ g.2)
  else
    let f := g.2.headD ⟨[], []⟩
    if jlen (stringifyList (acc.1 ++ [f])) ≤ 1000000 then
      (acc.1 ++ [f], acc.2)
    else
      (acc.1, acc.2 ++ [f])

/-- The whole merge loop of `getOutputs` over the groups. -/
def mergePhase (gs : List (List Char × List FileRecord)) :
    List FileRecord × List FileRecord :=
  gs.foldl mergeStep ([], [])

/-- `getOutputs` (lines 441-527): merge split groups where capacity
allows, then either return everything in the main field with the overflow
cleared (`undefined`), or distribute greedily between the two fields. -/
def getOutputs (l : List FileRecord) : IOutputs :=
  let mr := mergePhase (groupByName l)
  if mr.2.isEmpty then
    ⟨stringifyList mr.1, none⟩
  else
    let packed := packFold (mr.1 ++ mr.2) 0
    ⟨stringifyList packed.1, some (stringifyList packed.2)⟩

/-- The load path of `init` (lines 22-36): one `try` block parses the main
slot, assigns it, then parses and concatenates the overflow slot; a throw
jumps to `catch`, which only logs, keeping whatever was assigned so far. -/
def initLoad (mainText overflowText : Option (List Char)) : List FileRecord :=
  if truthy mainText then
    match parseRecords (mainText.getD []) with
    | none => []
    | some l1 =>
      if truthy overflowText then
        match parseRecords (overflowText.getD []) with
        | none => l1
        | some l2 => l1 ++ l2
      else l1
  else
    if truthy overflowText then
      match parseRecords (overflowText.getD []) with
      | none => []
      | some l2 => l2
    else []

/-- The load path of `updateView` (lines 425-439): same shape, but its
`catch` resets `fileBase64List` to the empty list. -/
def updateViewLoad (mainText overflowText : Option (List Char)) : List FileRecord :=
  if truthy mainText then
    match parseRecords (mainText.getD []) with
    | none => []
    | some l1 =>
      if truthy overflowText then
        match parseRecords (overflowText.getD []) with
        | none => []
        | some l2 => l1 ++ l2
      else l1
  else
    if truthy overflowText then
      match parseRecords (overflowText.getD []) with
      | none => []
      | some l2 => l2
    else []

/-- Loading the two slot values produced by `getOutputs`: parse the main
slot, then concatenate the parsed overflow slot. -/
def loadOutputs (o : IOutputs) : List FileRecord :=
  updateViewLoad (some o.uploadedFile) o.uploadedFileOverflow

/-- The mutable state of the control that the partitioner touches. -/
structure ControlState where
  fileBase64List : List FileRecord
deriving DecidableEq, Repr

/-- `getOutputs` as a state transformer on the control: the method reads
`this.fileBase64List`, builds every intermediate list (`fileGroups`,
`mergedFiles`, `remainingFiles`, `mainFieldFiles`, `overflowFiles`) in
fresh local arrays, and never assigns or mutates the field, so the state
component is returned unchanged. -/
def getOutputsM (s : ControlState) : IOutputs × ControlState :=
  (getOutputs s.fileBase64List, s)

/-- The merged candidate a group contributes in the merge phase: the
concatenation of the parts for a split group, the single member itself
otherwise. -/
def mergeGroup (g : List Char × List FileRecord) : FileRecord :=
  if 1 < g.2.length then ⟨g.1, (g.2.map FileRecord.data).flatten⟩
  else g.2.headD ⟨[], []⟩

/-- The fully merged store: what the merge phase produces when every
candidate fits. -/
def mergedAll (l : List FileRecord) : List FileRecord :=
  (groupByName l).map mergeGroup

/-- Total serialized footprint of a record list: each member costs its own
stringified length plus one separating or closing character. -/
def szTotal (l : List FileRecord) : Nat :=
  (l.map (fun f => jlen (stringifyRecord f) + 1)).sum

/-- Serialized footprint of a group list: sum of members' footprints. -/
def groupSum (gs : List (List Char × List FileRecord)) : Nat :=
  (gs.map (fun g => szTotal g.2)).sum


/-- A store holding two records that share one name without being parts of
one split file. -/
def exDup : List FileRecord := [⟨['a'], ['x']⟩, ⟨['a'], ['z']⟩]

/-- A store holding one record whose stringified length is 999999, so that
the array text around it is 1000001 characters long. -/
def bigSingle : List FileRecord := [⟨['a'], List.replicate 999977 'b'⟩]

/-- A store whose serialized main text is 999990 characters (the spec's
near-full scenario). -/
def nearFullStore : List FileRecord := [⟨['a'], List.replicate 999966 'b'⟩]

/-- A record of stringified length exactly 1000000: one UTF-16 unit too
wide for the greedy packer to accept, and over capacity on its own. -/
def exG : FileRecord := ⟨['g'], List.replicate 999978 'b'⟩

/-- One half of a split pair whose merged form misses capacity by two. -/
def exH : FileRecord := ⟨['h'], List.replicate 499989 'b'⟩

/-- A store mixing an oversized single record with a split pair: the store
that drives `getOutputs` through its greedy distribution path twice with
different group orders. -/
def exIdem : List FileRecord := [exG, exH, exH]

/-- A small two-part split group used as a merge witness. -/
def exMergePair : List FileRecord := [⟨['a'], ['x']⟩, ⟨['a'], ['y']⟩]

/-- A well-formed single-record slot text paired with unparseable overflow
text in the load counterexamples. -/
def exRec : FileRecord := ⟨['a'], ['x']⟩

@[simp] theorem jlen_nil : jlen [] = 0 := rfl

@[simp] theorem jlen_cons (c : Char) (l : List Char) :
    jlen (c :: l) = utf16Size c + jlen l := by
  simp [jlen]

@[simp] theorem jlen_append (a b : List Char) : jlen (a ++ b) = jlen a + jlen b := by
  simp [jlen]

@[simp] theorem escapeString_nil : escapeString [] = [] := rfl

@[simp] theorem escapeString_cons (c : Char) (l : List Char) :
    escapeString (c :: l) = escapeChar c ++ escapeString l := by
  simp [escapeString]

@[simp] theorem escapeString_append (a b : List Char) :
    escapeString (a ++ b) = escapeString a ++ escapeString b := by
  simp [escapeString]

@[simp] theorem jlen_nameKeyChars : jlen nameKeyChars = 7 := by decide

@[simp] theorem jlen_dataKeyChars : jlen dataKeyChars = 8 := by decide

@[simp] theorem utf16Size_lbrace : utf16Size lbraceChar = 1 := by decide

@[simp] theorem utf16Size_rbrace : utf16Size rbraceChar = 1 := by decide

@[simp] theorem utf16Size_quote : utf16Size quoteChar = 1 := by decide

@[simp] theorem utf16Size_lbracket : utf16Size '[' = 1 := by decide

@[simp] theorem utf16Size_rbracket : utf16Size ']' = 1 := by decide

@[simp] theorem utf16Size_comma : utf16Size ',' = 1 := by decide

/-- UTF-16 length of one stringified record: 21 framing characters plus
the two escaped field bodies. -/
theorem jlen_stringifyRecord (f : FileRecord) :
    jlen (stringifyRecord f) =
      21 + jlen (escapeString f.name) + jlen (escapeString f.data) := by
  simp [stringifyRecord, quoteString]
  ring

@[simp] theorem szTotal_nil : szTotal [] = 0 := rfl

@[simp] theorem szTotal_cons (f : FileRecord) (l : List FileRecord) :
    szTotal (f :: l) = jlen (stringifyRecord f) + 1 + szTotal l := by
  simp [szTotal]

@[simp] theorem szTotal_append (a b : List FileRecord) :
    szTotal (a ++ b) = szTotal a + szTotal b := by
  simp [szTotal]

theorem jlen_stringifyItems (l : List FileRecord) (h : l ≠ []) :
    jlen (stringifyItems l) + 1 = szTotal l := by
  induction l with
  | nil => exact absurd rfl h
  | cons f t ih =>
    cases t with
    | nil => simp [stringifyItems]
    | cons g t' =>
      have := ih (by simp)
      simp only [stringifyItems, jlen_append, jlen_cons, utf16Size_comma, szTotal_cons] at *
      omega

/-- UTF-16 length of a stringified record array. -/
theorem jlen_stringifyList (l : List FileRecord) :
    jlen (stringifyList l) = if l = [] then 2 else szTotal l + 1 := by
  cases l with
  | nil => decide
  | cons f t =>
    have h := jlen_stringifyItems (f :: t) (by simp)
    simp only [stringifyList, jlen_cons, jlen_append, utf16Size_lbracket,
      utf16Size_rbracket, jlen_nil, if_neg (List.cons_ne_nil f t)]
    omega

theorem escapeChar_plain (c : Char) (h32 : 32 ≤ c.toNat)
    (hq : c ≠ quoteChar) (hb : c ≠ backslashChar) : escapeChar c = [c] := by
  have h8 : c ≠ Char.ofNat 8 := by rintro rfl; revert h32; decide
  have h9 : c ≠ Char.ofNat 9 := by rintro rfl; revert h32; decide
  have h10 : c ≠ Char.ofNat 10 := by rintro rfl; revert h32; decide
  have h12 : c ≠ Char.ofNat 12 := by rintro rfl; revert h32; decide
  have h13 : c ≠ Char.ofNat 13 := by rintro rfl; revert h32; decide
  simp [escapeChar, hq, hb, h8, h9, h10, h12, h13, Nat.not_lt.mpr h32]

theorem escapeString_replicate (n : Nat) (c : Char) (h : escapeChar c = [c]) :
    escapeString (List.replicate n c) = List.replicate n c := by
  induction n with
  | zero => simp
  | succ k ih => simp [List.replicate_succ, h, ih]

theorem jlen_replicate (n : Nat) (c : Char) (h : utf16Size c = 1) :
    jlen (List.replicate n c) = n := by
  induction n with
  | zero => simp
  | succ k ih => simp [List.replicate_succ, h, ih]; omega

@[simp] theorem escapeChar_b : escapeChar 'b' = ['b'] := by decide

@[simp] theorem utf16Size_b : utf16Size 'b' = 1 := by decide

theorem utf16Take_append_utf16Drop (n : Nat) (l : List Char) :
    utf16Take n l ++ utf16Drop n l = l := by
  induction l generalizing n with
  | nil => simp [utf16Take, utf16Drop]
  | cons c rest ih =>
    by_cases h : utf16Size c ≤ n
    · simp [utf16Take, utf16Drop, h, ih]
    · simp [utf16Take, utf16Drop, h]

theorem utf16Take_replicate (n m : Nat) (c : Char) (h : utf16Size c = 1) :
    utf16Take n (List.replicate m c) = List.replicate (min n m) c := by
  induction m generalizing n with
  | zero => simp [utf16Take]
  | succ k ih =>
    cases n with
    | zero => simp [List.replicate_succ, utf16Take, h]
    | succ j =>
      simp [List.replicate_succ, utf16Take, h, ih, Nat.succ_min_succ]

theorem utf16Drop_replicate (n m : Nat) (c : Char) (h : utf16Size c = 1) :
    utf16Drop n (List.replicate m c) = List.replicate (m - n) c := by
  induction m generalizing n with
  | zero => simp [utf16Drop]
  | succ k ih =>
    cases n with
    | zero => simp [List.replicate_succ, utf16Drop, h]
    | succ j =>
      simp [List.replicate_succ, utf16Drop, h, ih, Nat.succ_sub_succ]

theorem hexVal_hexDigitChar (m : Nat) (h : m < 16) :
    hexVal (hexDigitChar m) = some m := by
  interval_cases m <;> decide

/-- Parsing a backslash short escape prepends its decoded character. -/
theorem parseStringBody_shortEscape (e c2 : Char) (rest b r : List Char)
    (he : e ≠ 'u') (hu : unescapeChar e = some c2)
    (h : parseStringBody rest = some (b, r)) :
    parseStringBody (backslashChar :: e :: rest) = some (c2 :: b, r) := by
  rw [parseStringBody.eq_def]
  dsimp only
  rw [if_neg (show ¬(backslashChar = quoteChar) from by decide), if_pos rfl]
  rw [if_neg he, hu, h]

/-- Parsing a `u00XX` escape prepends the control character it encodes. -/
theorem parseStringBody_uEscape (t : Nat) (h32 : t < 32) (rest b r : List Char)
    (h : parseStringBody rest = some (b, r)) :
    parseStringBody (backslashChar :: 'u' :: '0' :: '0' ::
        hexDigitChar (t / 16) :: hexDigitChar (t % 16) :: rest)
      = some (Char.ofNat t :: b, r) := by
  have hd1 : hexVal (hexDigitChar (t / 16)) = some (t / 16) :=
    hexVal_hexDigitChar _ (by omega)
  have hd2 : hexVal (hexDigitChar (t % 16)) = some (t % 16) :=
    hexVal_hexDigitChar _ (by omega)
  have hz : hexVal '0' = some 0 := by decide
  rw [parseStringBody.eq_def]
  dsimp only
  rw [if_neg (show ¬(backslashChar = quoteChar) from by decide), if_pos rfl]
  rw [if_pos rfl, hz, hd1, hd2]
  dsimp only
  have hv : ((0 * 16 + 0) * 16 + t / 16) * 16 + t % 16 = t := by omega
  rw [hv]
  rw [if_pos (Or.inl (by omega : t < 55296)), h]

/-- Parsing an unescaped ordinary character prepends it. -/
theorem parseStringBody_plain (c : Char) (rest b r : List Char)
    (h1 : c ≠ quoteChar) (h2 : c ≠ backslashChar)
    (h : parseStringBody rest = some (b, r)) :
    parseStringBody (c :: rest) = some (c :: b, r) := by
  rw [parseStringBody.eq_def]
  dsimp only
  rw [if_neg h1, if_neg h2, h]

/-- Parsing one escaped character prepends exactly that character. -/
theorem parseStringBody_escapeChar (c : Char) (rest b r : List Char)
    (h : parseStringBody rest = some (b, r)) :
    parseStringBody (escapeChar c ++ rest) = some (c :: b, r) := by
  by_cases h1 : c = quoteChar
  · subst h1
    rw [show escapeChar quoteChar = [backslashChar, quoteChar] from by decide]
    exact parseStringBody_shortEscape _ _ _ _ _ (by decide) (by decide) h
  · by_cases h2 : c = backslashChar
    · subst h2
      rw [show escapeChar backslashChar = [backslashChar, backslashChar] from by decide]
      exact parseStringBody_shortEscape _ _ _ _ _ (by decide) (by decide) h
    · by_cases h3 : c = Char.ofNat 8
      · subst h3
        rw [show escapeChar (Char.ofNat 8) = [backslashChar, 'b'] from by decide]
        exact parseStringBody_shortEscape _ _ _ _ _ (by decide) (by decide) h
      · by_cases h4 : c = Char.ofNat 9
        · subst h4
          rw [show escapeChar (Char.ofNat 9) = [backslashChar, 't'] from by decide]
          exact parseStringBody_shortEscape _ _ _ _ _ (by decide) (by decide) h
        · by_cases h5 : c = Char.ofNat 10
          · subst h5
            rw [show escapeChar (Char.ofNat 10) = [backslashChar, 'n'] from by decide]
            exact parseStringBody_shortEscape _ _ _ _ _ (by decide) (by decide) h
          · by_cases h6 : c = Char.ofNat 12
            · subst h6
              rw [show escapeChar (Char.ofNat 12) = [backslashChar, 'f'] from by decide]
              exact parseStringBody_shortEscape _ _ _ _ _ (by decide) (by decide) h
            · by_cases h7 : c = Char.ofNat 13
              · subst h7
                rw [show escapeChar (Char.ofNat 13) = [backslashChar, 'r'] from by decide]
                exact parseStringBody_shortEscape _ _ _ _ _ (by decide) (by decide) h
              · by_cases h32 : c.toNat < 32
                · rw [escapeChar, if_neg h1, if_neg h2, if_neg h3, if_neg h4, if_neg h5,
                    if_neg h6, if_neg h7, if_pos h32]
                  simp only [List.cons_append, List.nil_append]
                  have := parseStringBody_uEscape c.toNat h32 rest b r h
                  rw [this.symm.symm]
                  rw [Char.ofNat_toNat]
                · have hc : escapeChar c = [c] := escapeChar_plain c (by omega) h1 h2
                  rw [hc]
                  simp only [List.cons_append, List.nil_append]
                  exact parseStringBody_plain c rest b r h1 h2 h

/-- Parsing an escaped string body stops exactly at the closing quote. -/
theorem parseStringBody_escapeString (s : List Char) (r : List Char) :
    parseStringBody (escapeString s ++ quoteChar :: r) = some (s, r) := by
  induction s with
  | nil =>
    rw [escapeString_nil, List.nil_append, parseStringBody.eq_def]
    dsimp only
    rw [if_pos rfl]
  | cons c s ih =>
    rw [escapeString_cons, List.append_assoc]
    exact parseStringBody_escapeChar c _ s r ih

/-- Parsing a rendered JSON string literal recovers the string. -/
theorem parseJSONString_quoteString (s : List Char) (r : List Char) :
    parseJSONString (quoteString s ++ r) = some (s, r) := by
  rw [quoteString]
  simp only [List.cons_append, List.append_assoc, List.cons_append, List.nil_append]
  rw [parseJSONString]
  rw [if_pos rfl]
  exact parseStringBody_escapeString s r

/-- Consuming a literal sequence off the front succeeds. -/
theorem stripPrefixChars_append (p r : List Char) :
    stripPrefixChars p (p ++ r) = some r := by
  induction p with
  | nil => rfl
  | cons a p ih =>
    rw [List.cons_append, stripPrefixChars]
    rw [if_pos rfl]
    exact ih

/-- Parsing a stringified record recovers the record. -/
theorem parseRecord_stringifyRecord (f : FileRecord) (r : List Char) :
    parseRecord (stringifyRecord f ++ r) = some (f, r) := by
  rw [stringifyRecord]
  simp only [List.cons_append, List.append_assoc]
  rw [parseRecord]
  rw [if_pos rfl]
  rw [stripPrefixChars_append]
  dsimp only
  rw [parseJSONString_quoteString]
  dsimp only
  rw [stripPrefixChars_append]
  dsimp only
  rw [parseJSONString_quoteString]
  dsimp only
  simp only [List.nil_append]
  simp

/-- Parsing the members of a stringified array recovers the records, given
enough fuel. -/
theorem parseItems_stringifyItems (l : List FileRecord) (f : FileRecord) :
    ∀ fuel : Nat, l.length + 1 ≤ fuel →
      parseItems fuel (stringifyItems (f :: l) ++ [']']) = some (f :: l) := by
  induction l generalizing f with
  | nil =>
    intro fuel hf
    match fuel, hf with
    | fuel + 1, _ =>
      rw [stringifyItems, parseItems, parseRecord_stringifyRecord]
      dsimp only
      rw [if_neg (show ¬((']' : Char) = ',') from by decide), if_pos rfl, if_pos rfl]
  | cons g t ih =>
    intro fuel hf
    match fuel, hf with
    | fuel + 1, hf =>
      rw [stringifyItems]
      simp only [List.append_assoc, List.cons_append]
      rw [parseItems, parseRecord_stringifyRecord]
      dsimp only
      rw [if_pos rfl]
      rw [ih g fuel (by simp only [List.length_cons] at hf; omega)]
  
/-- Each record contributes at least one character of stringified text. -/
theorem length_stringifyItems_ge (l : List FileRecord) :
    l.length ≤ (stringifyItems l).length := by
  induction l with
  | nil => simp [stringifyItems]
  | cons f t ih =>
    cases t with
    | nil => simp [stringifyItems, stringifyRecord]
    | cons g t' =>
      rw [stringifyItems]
      simp only [List.length_append, List.length_cons]
      have : 1 ≤ (stringifyRecord f).length := by
        rw [stringifyRecord]; simp
      simp only [List.length_cons] at ih
      omega

/-- `JSON.parse` inverts `JSON.stringify` on every record array. -/
theorem parseRecords_stringifyList (l : List FileRecord) :
    parseRecords (stringifyList l) = some l := by
  cases l with
  | nil => decide
  | cons f t =>
    rw [stringifyList, parseRecords.eq_def]
    dsimp only
    rw [if_pos rfl]
    have hcons : ∃ u, stringifyItems (f :: t) = lbraceChar :: u := by
      cases t with
      | nil => exact ⟨_, rfl⟩
      | cons g t' => exact ⟨_, rfl⟩
    obtain ⟨u, hu⟩ := hcons
    rw [hu]
    simp only [List.cons_append]
    rw [if_neg (by simp [show ¬(lbraceChar = ']') from by decide])]
    rw [show lbraceChar :: (u ++ [']']) = (lbraceChar :: u) ++ [']'] from rfl, ← hu]
    apply parseItems_stringifyItems
    have h1 := length_stringifyItems_ge (f :: t)
    simp only [List.length_cons, List.length_append, List.length_nil] at *
    omega

/-- `JSON.stringify` is injective on record arrays. -/
theorem stringifyList_injective (a b : List FileRecord)
    (h : stringifyList a = stringifyList b) : a = b := by
  have ha := parseRecords_stringifyList a
  have hb := parseRecords_stringifyList b
  rw [h] at ha
  rw [ha] at hb
  exact Option.some.injEq _ _ ▸ hb.symm ▸ rfl

@[simp] theorem groupSum_nil : groupSum [] = 0 := rfl

@[simp] theorem groupSum_cons (g : List Char × List FileRecord)
    (gs : List (List Char × List FileRecord)) :
    groupSum (g :: gs) = szTotal g.2 + groupSum gs := by
  simp [groupSum]

theorem insertGroup_keys (gs : List (List Char × List FileRecord)) (f : FileRecord) :
    (insertGroup gs f).map Prod.fst =
      if f.name ∈ gs.map Prod.fst then gs.map Prod.fst
      else gs.map Prod.fst ++ [f.name] := by
  induction gs with
  | nil => simp [insertGroup]
  | cons g rest ih =>
    obtain ⟨n, fs⟩ := g
    by_cases hn : n = f.name
    · subst hn
      simp [insertGroup]
    · rw [insertGroup]
      rw [if_neg hn]
      by_cases hm : f.name ∈ rest.map Prod.fst
      · simp [hm, ih]
      · have hne : ¬ f.name = n := fun e => hn e.symm
        simp [hm, ih, hne]

theorem insertGroup_good (gs : List (List Char × List FileRecord)) (f : FileRecord)
    (h : ∀ g ∈ gs, g.2 ≠ [] ∧ ∀ x ∈ g.2, x.name = g.1) :
    ∀ g ∈ insertGroup gs f, g.2 ≠ [] ∧ ∀ x ∈ g.2, x.name = g.1 := by
  induction gs with
  | nil =>
    intro g hg
    simp [insertGroup] at hg
    subst hg
    simp
  | cons g0 rest ih =>
    obtain ⟨n, fs⟩ := g0
    intro g hg
    by_cases hn : n = f.name
    · subst hn
      rw [insertGroup, if_pos rfl] at hg
      rcases List.mem_cons.mp hg with h1 | h2
      · subst h1
        refine ⟨by simp, ?_⟩
        intro x hx
        rcases List.mem_append.mp hx with hx1 | hx2
        · exact (h (f.name, fs) (List.mem_cons_self _ _)).2 x hx1
        · simp at hx2
          subst hx2
          rfl
      · exact h g (List.mem_cons_of_mem _ h2)
    · rw [insertGroup, if_neg hn] at hg
      rcases List.mem_cons.mp hg with h1 | h2
      · subst h1
        exact h (n, fs) (List.mem_cons_self _ _)
      · exact ih (fun g' hg' => h g' (List.mem_cons_of_mem _ hg')) g h2

theorem insertGroup_groupSum (gs : List (List Char × List FileRecord)) (f : FileRecord) :
    groupSum (insertGroup gs f) = groupSum gs + (jlen (stringifyRecord f) + 1) := by
  induction gs with
  | nil => simp [insertGroup, groupSum, szTotal]
  | cons g0 rest ih =>
    obtain ⟨n, fs⟩ := g0
    by_cases hn : n = f.name
    · subst hn
      rw [insertGroup, if_pos rfl]
      simp [groupSum, szTotal]
      omega
    · rw [insertGroup, if_neg hn]
      simp only [groupSum_cons] at *
      omega

theorem insertGroup_nodup (gs : List (List Char × List FileRecord)) (f : FileRecord)
    (h : (gs.map Prod.fst).Nodup) : ((insertGroup gs f).map Prod.fst).Nodup := by
  rw [insertGroup_keys]
  by_cases hm : f.name ∈ gs.map Prod.fst
  · simp [hm, h]
  · simp [hm]
    exact List.Nodup.append h (List.nodup_singleton _) (by simp [List.disjoint_left, hm])

theorem foldl_insertGroup_spec (l : List FileRecord) :
    ∀ gs : List (List Char × List FileRecord),
      (gs.map Prod.fst).Nodup →
      (∀ g ∈ gs, g.2 ≠ [] ∧ ∀ x ∈ g.2, x.name = g.1) →
      ((l.foldl insertGroup gs).map Prod.fst).Nodup ∧
        (∀ g ∈ l.foldl insertGroup gs, g.2 ≠ [] ∧ ∀ x ∈ g.2, x.name = g.1) ∧
        groupSum (l.foldl insertGroup gs) = groupSum gs + szTotal l := by
  induction l with
  | nil => intro gs h1 h2; exact ⟨h1, h2, by simp⟩
  | cons f t ih =>
    intro gs h1 h2
    have h1' := insertGroup_nodup gs f h1
    have h2' := insertGroup_good gs f h2
    obtain ⟨a, b, c⟩ := ih (insertGroup gs f) h1' h2'
    refine ⟨a, b, ?_⟩
    rw [List.foldl_cons] at *
    rw [c, insertGroup_groupSum]
    simp
    omega

/-- The groups of a store: distinct keys, nonempty groups whose members
carry the group's name, and a footprint partitioning the store's. -/
theorem groupByName_spec (l : List FileRecord) :
    ((groupByName l).map Prod.fst).Nodup ∧
      (∀ g ∈ groupByName l, g.2 ≠ [] ∧ ∀ x ∈ g.2, x.name = g.1) ∧
      groupSum (groupByName l) = szTotal l := by
  have := foldl_insertGroup_spec l [] (by simp) (by simp)
  simpa [groupByName] using this

@[simp] theorem jlen_flatten (xs : List (List Char)) :
    jlen xs.flatten = (xs.map jlen).sum := by
  induction xs with
  | nil => simp
  | cons a t ih => simp [ih]

theorem escapeString_flatten (ds : List (List Char)) :
    escapeString ds.flatten = (ds.map escapeString).flatten := by
  induction ds with
  | nil => simp
  | cons a t ih => simp [ih]

/-- Merging a group never costs more serialized space than keeping its
parts: the merged record saves one copy of the framing and name per
additional part. -/
theorem mergeGroup_sz (g : List Char × List FileRecord) (hne : g.2 ≠ [])
    (hn : ∀ x ∈ g.2, x.name = g.1) :
    jlen (stringifyRecord (mergeGroup g)) + 1 ≤ szTotal g.2 := by
  obtain ⟨n, fs⟩ := g
  by_cases hlen : 1 < fs.length
  · rw [mergeGroup, if_pos hlen]
    rw [jlen_stringifyRecord]
    dsimp only
    rw [escapeString_flatten]
    rw [jlen_flatten]
    have key : ∀ fs' : List FileRecord, (∀ x ∈ fs', x.name = n) →
        ((fs'.map FileRecord.data).map escapeString).map jlen
          = fs'.map (fun x => jlen (escapeString x.data)) ∧
        szTotal fs' = ((fs'.map (fun x => jlen (escapeString x.data))).sum)
          + fs'.length * (22 + jlen (escapeString n)) := by
      intro fs' hfs'
      induction fs' with
      | nil => simp
      | cons x t ih =>
        obtain ⟨ia, ib⟩ := ih (fun y hy => hfs' y (List.mem_cons_of_mem _ hy))
        have hx : x.name = n := hfs' x (List.mem_cons_self _ _)
        constructor
        · simp [ia]
        · rw [szTotal_cons, ib, jlen_stringifyRecord, hx]
          simp
          ring
    obtain ⟨ka, kb⟩ := key fs hn
    rw [ka, kb]
    have hlen1 : 1 ≤ fs.length := by omega
    have : 22 + jlen (escapeString n) ≤ fs.length * (22 + jlen (escapeString n)) :=
      Nat.le_mul_of_pos_left _ (by omega)
    omega
  · rw [mergeGroup, if_neg hlen]
    cases fs with
    | nil => exact absurd rfl hne
    | cons x t =>
      cases t with
      | nil => simp [szTotal]
      | cons y t' =>
        exfalso
        apply hlen
        simp

theorem mergeGroup_name (g : List Char × List FileRecord) (hne : g.2 ≠ [])
    (hn : ∀ x ∈ g.2, x.name = g.1) : (mergeGroup g).name = g.1 := by
  obtain ⟨n, fs⟩ := g
  by_cases hlen : 1 < fs.length
  · rw [mergeGroup, if_pos hlen]
  · rw [mergeGroup, if_neg hlen]
    cases fs with
    | nil => exact absurd rfl hne
    | cons x t => exact hn x (List.mem_cons_self _ _)

/-- When every group's merged candidate keeps the accumulated list within
capacity, the merge loop accepts all of them and spills nothing. -/
theorem mergePhase_all_fit :
    ∀ (gs : List (List Char × List FileRecord)) (m r : List FileRecord),
      (∀ g ∈ gs, g.2 ≠ [] ∧ ∀ x ∈ g.2, x.name = g.1) →
      szTotal m + groupSum gs ≤ 999999 →
      gs.foldl mergeStep (m, r) = (m ++ gs.map mergeGroup, r) := by
  intro gs
  induction gs with
  | nil => intro m r _ _; simp
  | cons g t ih =>
    intro m r hgood hcap
    have hg := hgood g (List.mem_cons_self _ _)
    have hsz := mergeGroup_sz g hg.1 hg.2
    have hfit : jlen (stringifyList (m ++ [mergeGroup g])) ≤ 1000000 := by
      rw [jlen_stringifyList, if_neg (by simp)]
      rw [szTotal_append]
      simp only [szTotal_cons, szTotal_nil]
      simp only [groupSum_cons] at hcap
      omega
    have hstep : mergeStep (m, r) g = (m ++ [mergeGroup g], r) := by
      by_cases hlen : 1 < g.2.length
      · rw [mergeStep]
        rw [if_pos hlen]
        dsimp only
        rw [show (⟨g.1, (g.2.map FileRecord.data).flatten⟩ : FileRecord) = mergeGroup g from
          by rw [mergeGroup, if_pos hlen]]
        rw [if_pos hfit]
      · rw [mergeStep]
        rw [if_neg hlen]
        dsimp only
        rw [show g.2.headD ⟨[], []⟩ = mergeGroup g from by rw [mergeGroup, if_neg hlen]]
        rw [if_pos hfit]
    rw [List.foldl_cons, hstep]
    rw [ih (m ++ [mergeGroup g]) r (fun g' hg' => hgood g' (List.mem_cons_of_mem _ hg'))
      (by simp only [szTotal_append, szTotal_cons, szTotal_nil, groupSum_cons] at *; omega)]
    simp

/-- Under the capacity bound, `getOutputs` returns the fully merged store
in the main slot and clears the overflow slot. -/
theorem getOutputs_le_cap (l : List FileRecord)
    (hcap : jlen (stringifyList l) ≤ 1000000) :
    getOutputs l = ⟨stringifyList (mergedAll l), none⟩ := by
  obtain ⟨hnd, hgood, hsum⟩ := groupByName_spec l
  have hb : szTotal ([] : List FileRecord) + groupSum (groupByName l) ≤ 999999 := by
    rw [jlen_stringifyList] at hcap
    by_cases hl : l = []
    · subst hl
      simp [groupByName]
    · rw [if_neg hl] at hcap
      simp only [szTotal_nil, hsum]
      omega
  have hm := mergePhase_all_fit (groupByName l) [] [] hgood hb
  rw [getOutputs, mergePhase] at *
  rw [hm]
  simp [mergedAll]

theorem insertGroup_fresh (gs : List (List Char × List FileRecord)) (f : FileRecord)
    (h : ∀ g ∈ gs, g.1 ≠ f.name) :
    insertGroup gs f = gs ++ [(f.name, [f])] := by
  induction gs with
  | nil => rfl
  | cons g0 rest ih =>
    obtain ⟨n, fs⟩ := g0
    rw [insertGroup, if_neg (h (n, fs) (List.mem_cons_self _ _))]
    rw [ih (fun g' hg' => h g' (List.mem_cons_of_mem _ hg'))]
    simp

/-- With pairwise distinct names, grouping produces one singleton group
per record, in order. -/
theorem groupByName_distinct (l : List FileRecord)
    (hd : l.Pairwise (fun a b => a.name ≠ b.name)) :
    groupByName l = l.map (fun f => (f.name, [f])) := by
  suffices h : ∀ gs : List (List Char × List FileRecord),
      (∀ g ∈ gs, ∀ x ∈ l, g.1 ≠ x.name) →
      l.foldl insertGroup gs = gs ++ l.map (fun f => (f.name, [f])) by
    simpa [groupByName] using h [] (by simp)
  induction l with
  | nil => intro gs _; simp
  | cons f t ih =>
    intro gs hgs
    rw [List.foldl_cons]
    rw [insertGroup_fresh gs f (fun g hg => hgs g hg f (List.mem_cons_self _ _))]
    rw [ih (List.Pairwise.of_cons hd) (gs ++ [(f.name, [f])]) ?_]
    · simp
    · intro g hg x hx
      rcases List.mem_append.mp hg with h1 | h2
      · exact hgs g h1 x (List.mem_cons_of_mem _ hx)
      · simp at h2
        subst h2
        exact (List.pairwise_cons.mp hd).1 x hx

/-- With pairwise distinct names, merging changes nothing. -/
theorem mergedAll_distinct (l : List FileRecord)
    (hd : l.Pairwise (fun a b => a.name ≠ b.name)) :
    mergedAll l = l := by
  rw [mergedAll, groupByName_distinct l hd]
  rw [List.map_map]
  have : (mergeGroup ∘ fun f : FileRecord => (f.name, [f])) = id := by
    funext f
    simp [mergeGroup]
  rw [this, List.map_id]

theorem updateViewLoad_stringify (m : List FileRecord) (o : Option (List Char)) :
    (o = none) → updateViewLoad (some (stringifyList m)) o = m := by
  intro ho
  subst ho
  rw [updateViewLoad]
  rw [if_pos (by simp [truthy, stringifyList])]
  simp only [Option.getD_some]
  rw [parseRecords_stringifyList]
  dsimp only
  rw [if_neg (by simp [truthy])]

theorem mergedAll_names (l : List FileRecord) :
    (mergedAll l).map FileRecord.name = (groupByName l).map Prod.fst := by
  obtain ⟨_, hgood, _⟩ := groupByName_spec l
  rw [mergedAll, List.map_map]
  apply List.map_congr_left
  intro g hg
  exact mergeGroup_name g (hgood g hg).1 (hgood g hg).2

theorem mergedAll_pairwise (l : List FileRecord) :
    (mergedAll l).Pairwise (fun a b => a.name ≠ b.name) := by
  obtain ⟨hnd, _, _⟩ := groupByName_spec l
  have h : ((mergedAll l).map FileRecord.name).Nodup := by
    rw [mergedAll_names]; exact hnd
  exact List.pairwise_map.mp h

theorem mapMergeGroup_sz (gs : List (List Char × List FileRecord))
    (hgood : ∀ g ∈ gs, g.2 ≠ [] ∧ ∀ x ∈ g.2, x.name = g.1) :
    szTotal (gs.map mergeGroup) ≤ groupSum gs := by
  induction gs with
  | nil => simp
  | cons g t ih =>
    have hg := hgood g (List.mem_cons_self _ _)
    have := mergeGroup_sz g hg.1 hg.2
    have ht := ih (fun g' hg' => hgood g' (List.mem_cons_of_mem _ hg'))
    simp only [List.map_cons, szTotal_cons, groupSum_cons]
    omega

theorem szTotal_mergedAll_le (l : List FileRecord) :
    szTotal (mergedAll l) ≤ szTotal l := by
  obtain ⟨_, hgood, hsum⟩ := groupByName_spec l
  rw [mergedAll, ← hsum]
  exact mapMergeGroup_sz (groupByName l) hgood

theorem mergedAll_cap (l : List FileRecord)
    (hcap : jlen (stringifyList l) ≤ 1000000) :
    jlen (stringifyList (mergedAll l)) ≤ 1000000 := by
  rw [jlen_stringifyList]
  by_cases hM : mergedAll l = []
  · simp [hM]
  · rw [if_neg hM]
    have hl : l ≠ [] := by
      intro he
      subst he
      exact hM rfl
    rw [jlen_stringifyList, if_neg hl] at hcap
    have := szTotal_mergedAll_le l
    omega

theorem loadOutputs_getOutputs_cap (l : List FileRecord)
    (hcap : jlen (stringifyList l) ≤ 1000000) :
    loadOutputs (getOutputs l) = mergedAll l := by
  rw [getOutputs_le_cap l hcap, loadOutputs]
  exact updateViewLoad_stringify (mergedAll l) none rfl

theorem roundtrip_core (l : List FileRecord)
    (hd : l.Pairwise (fun a b => a.name ≠ b.name))
    (hcap : jlen (stringifyList l) ≤ 1000000) :
    loadOutputs (getOutputs l) = l := by
  rw [loadOutputs_getOutputs_cap l hcap]
  exact mergedAll_distinct l hd

theorem idem_core (l : List FileRecord)
    (hcap : jlen (stringifyList l) ≤ 1000000) :
    getOutputs (loadOutputs (getOutputs l)) = getOutputs l := by
  rw [loadOutputs_getOutputs_cap l hcap]
  rw [getOutputs_le_cap l hcap]
  rw [getOutputs_le_cap (mergedAll l) (mergedAll_cap l hcap)]
  rw [mergedAll_distinct (mergedAll l) (mergedAll_pairwise l)]

theorem jlen_stringifyRecord_repl (c0 : Char) (k : Nat)
    (hc : escapeChar c0 = [c0]) (hs : utf16Size c0 = 1) :
    jlen (stringifyRecord ⟨[c0], List.replicate k 'b'⟩) = 22 + k := by
  rw [jlen_stringifyRecord]
  dsimp only
  rw [escapeString_replicate k 'b' (by decide)]
  rw [jlen_replicate k 'b' (by decide)]
  rw [show escapeString [c0] = [c0] from by simp [escapeString, hc]]
  rw [show jlen [c0] = 1 from by simp [hs]]

theorem foldl_insertGroup_const (t : List FileRecord) (n : List Char) :
    ∀ fs : List FileRecord, (∀ f ∈ t, f.name = n) →
      t.foldl insertGroup [(n, fs)] = [(n, fs ++ t)] := by
  induction t with
  | nil => intro fs _; simp
  | cons f t' ih =>
    intro fs h
    rw [List.foldl_cons]
    rw [show insertGroup [(n, fs)] f = [(n, fs ++ [f])] from by
      rw [insertGroup, if_pos (h f (List.mem_cons_self _ _)).symm]]
    rw [ih (fs ++ [f]) (fun g hg => h g (List.mem_cons_of_mem _ hg))]
    simp

theorem groupByName_const (l : List FileRecord) (n : List Char) (hne : l ≠ [])
    (h : ∀ f ∈ l, f.name = n) : groupByName l = [(n, l)] := by
  cases l with
  | nil => exact absurd rfl hne
  | cons f t =>
    rw [groupByName, List.foldl_cons]
    rw [show insertGroup [] f = [(f.name, [f])] from rfl]
    rw [h f (List.mem_cons_self _ _)]
    rw [foldl_insertGroup_const t n [f] (fun g hg => h g (List.mem_cons_of_mem _ hg))]
    simp

/-- C6: for a store holding exactly one split group (two or more records
sharing one name) whose merged record serializes within the main
capacity, the next `getOutputs` call emits a single merged record whose
data is the in-order concatenation of the parts, with the overflow slot
cleared. -/
theorem c6_merge (l : List FileRecord) (n : List Char)
    (hlen : 1 < l.length)
    (hnames : ∀ f ∈ l, f.name = n)
    (hcap : jlen (stringifyList [⟨n, (l.map FileRecord.data).flatten⟩]) ≤ 1000000) :
    getOutputs l = ⟨stringifyList [⟨n, (l.map FileRecord.data).flatten⟩], none⟩ := by
  have hne : l ≠ [] := by intro he; subst he; simp at hlen
  have hstep : mergeStep ([], []) (n, l)
      = ([⟨n, (l.map FileRecord.data).flatten⟩], []) := by
    rw [mergeStep]
    dsimp only
    rw [if_pos hlen]
    rw [if_pos (by simpa using hcap)]
    simp
  rw [getOutputs, mergePhase, groupByName_const l n hne hnames]
  rw [List.foldl_cons, List.foldl_nil, hstep]
  simp

/-- C6 witness: a two-part split group of combined data `xy` merges back
into one record. -/
theorem c6_merge_witness :
    getOutputs exMergePair = ⟨stringifyList [⟨['a'], ['x', 'y']⟩], none⟩ :=
  c6_merge exMergePair ['a'] (by decide) (by decide) (by decide)

/-- C10: `getOutputs` never mutates the record store: the state component
of the method is returned exactly as it was. -/
theorem c10_no_mutation (s : ControlState) : (getOutputsM s).2 = s := rfl

/-- C7: if the serialized length of the current main sequence plus the new
record is within the 1000000-character limit — including exactly at the
limit — admission appends the whole record; one character over, the record
is never appended whole: admission either rejects or splits it in two. -/
theorem c7_boundary (store : List FileRecord) (nm d : List Char) :
    (jlen (stringifyList (store ++ [⟨nm, d⟩])) ≤ 1000000 →
      processFile store nm d = some (store ++ [⟨nm, d⟩])) ∧
    (1000000 < jlen (stringifyList (store ++ [⟨nm, d⟩])) →
      processFile store nm d = none ∨
        ∃ p1 p2 : List Char, p1 ++ p2 = d ∧
          processFile store nm d = some (store ++ [⟨nm, p1⟩, ⟨nm, p2⟩])) := by
  constructor
  · intro h
    rw [processFile]
    dsimp only
    rw [if_pos h]
  · intro h
    rw [processFile]
    dsimp only
    rw [if_neg (by omega)]
    by_cases h2 : 0 < 1000000 - jlen (stringifyList store)
    · rw [if_pos h2]
      by_cases h3 : jlen (stringifyList (store ++
          [⟨nm, utf16Take ((1000000 - jlen (stringifyList store)) / 2) d⟩])) ≤ 1000000
      · rw [if_pos h3]
        by_cases h4 : jlen (stringifyList (getCurrentOverflow store ++
            [⟨nm, utf16Drop ((1000000 - jlen (stringifyList store)) / 2) d⟩])) ≤ 1000000
        · rw [if_pos h4]
          right
          exact ⟨_, _, utf16Take_append_utf16Drop _ _, rfl⟩
        · rw [if_neg h4]; left; rfl
      · rw [if_neg h3]; left; rfl
    · rw [if_neg h2]; left; rfl

theorem jlen_stringifyList_cons (f : FileRecord) (t : List FileRecord) :
    jlen (stringifyList (f :: t)) = szTotal (f :: t) + 1 := by
  rw [jlen_stringifyList, if_neg (List.cons_ne_nil f t)]

/-- C7 witness: an empty store accepts a record serializing to exactly
1000000 characters whole, and one character over it is split or
rejected. -/
theorem c7_boundary_witness :
    processFile [] ['a'] (List.replicate 999976 'b')
        = some ([] ++ [⟨['a'], List.replicate 999976 'b'⟩]) ∧
      (processFile [] ['a'] (List.replicate 999977 'b') = none ∨
        ∃ p1 p2 : List Char, p1 ++ p2 = List.replicate 999977 'b' ∧
          processFile [] ['a'] (List.replicate 999977 'b')
            = some ([] ++ [⟨['a'], p1⟩, ⟨['a'], p2⟩])) := by
  constructor
  · refine (c7_boundary [] ['a'] (List.replicate 999976 'b')).1 ?_
    simp only [List.nil_append]
    rw [jlen_stringifyList_cons, szTotal_cons, szTotal_nil,
      jlen_stringifyRecord_repl 'a' 999976 (by decide) (by decide)]
  · refine (c7_boundary [] ['a'] (List.replicate 999977 'b')).2 ?_
    simp only [List.nil_append]
    rw [jlen_stringifyList_cons, szTotal_cons, szTotal_nil,
      jlen_stringifyRecord_repl 'a' 999977 (by decide) (by decide)]
    omega

/-- C3: when the new record does not fit whole but the halving split does
(positive headroom, the prefix part fits the main sequence, the suffix
part fits the overflow), admission succeeds with the two parts — both
carrying the record's name, split at half the headroom — appended in
order, and their data concatenated in storage order is exactly the
original payload. -/
theorem c3_split (store : List FileRecord) (nm d : List Char)
    (h1 : 1000000 < jlen (stringifyList (store ++ [⟨nm, d⟩])))
    (h2 : 0 < 1000000 - jlen (stringifyList store))
    (h3 : jlen (stringifyList (store ++
      [⟨nm, utf16Take ((1000000 - jlen (stringifyList store)) / 2) d⟩])) ≤ 1000000)
    (h4 : jlen (stringifyList (getCurrentOverflow store ++
      [⟨nm, utf16Drop ((1000000 - jlen (stringifyList store)) / 2) d⟩])) ≤ 1000000) :
    processFile store nm d
        = some (store ++ [⟨nm, utf16Take ((1000000 - jlen (stringifyList store)) / 2) d⟩,
            ⟨nm, utf16Drop ((1000000 - jlen (stringifyList store)) / 2) d⟩]) ∧
      utf16Take ((1000000 - jlen (stringifyList store)) / 2) d ++
          utf16Drop ((1000000 - jlen (stringifyList store)) / 2) d = d := by
  refine ⟨?_, utf16Take_append_utf16Drop _ _⟩
  rw [processFile]
  dsimp only
  rw [if_neg (by omega), if_pos h2, if_pos h3, if_pos h4]

/-- C3 witness: an empty store splits a 1000000-character payload at
headroom over two into a 499999-character prefix and 500001-character
suffix whose concatenation is the payload. -/
theorem c3_split_witness :
    processFile [] ['a'] (List.replicate 1000000 'b')
        = some [⟨['a'], List.replicate 499999 'b'⟩, ⟨['a'], List.replicate 500001 'b'⟩] ∧
      List.replicate 499999 'b' ++ List.replicate 500001 'b'
        = List.replicate 1000000 'b' := by
  have hsz : jlen (stringifyList ([] : List FileRecord)) = 2 := rfl
  have htake : utf16Take ((1000000 - jlen (stringifyList ([] : List FileRecord))) / 2)
      (List.replicate 1000000 'b') = List.replicate 499999 'b' := by
    rw [show (1000000 - jlen (stringifyList ([] : List FileRecord))) / 2 = 499999 from rfl]
    rw [utf16Take_replicate _ _ _ (by decide)]
    rw [show min 499999 1000000 = 499999 from by omega]
  have hdrop : utf16Drop ((1000000 - jlen (stringifyList ([] : List FileRecord))) / 2)
      (List.replicate 1000000 'b') = List.replicate 500001 'b' := by
    rw [show (1000000 - jlen (stringifyList ([] : List FileRecord))) / 2 = 499999 from rfl]
    rw [utf16Drop_replicate _ _ _ (by decide)]
  have hov : getCurrentOverflow ([] : List FileRecord) = [] := by
    rw [getCurrentOverflow,
      if_pos (by decide : jlen (stringifyList ([] : List FileRecord)) ≤ 1000000)]
  obtain ⟨ha, hb⟩ := c3_split [] ['a'] (List.replicate 1000000 'b')
    (by
      simp only [List.nil_append]
      rw [jlen_stringifyList_cons, szTotal_cons, szTotal_nil,
        jlen_stringifyRecord_repl 'a' 1000000 (by decide) (by decide)]
      omega)
    (by rw [hsz]; omega)
    (by
      rw [htake]
      simp only [List.nil_append]
      rw [jlen_stringifyList_cons, szTotal_cons, szTotal_nil,
        jlen_stringifyRecord_repl 'a' 499999 (by decide) (by decide)]
      omega)
    (by
      rw [hdrop, hov]
      simp only [List.nil_append]
      rw [jlen_stringifyList_cons, szTotal_cons, szTotal_nil,
        jlen_stringifyRecord_repl 'a' 500001 (by decide) (by decide)]
      omega)
  rw [htake, hdrop] at ha hb
  rw [List.nil_append] at ha
  exact ⟨ha, hb⟩

/-- C4: when neither the whole record nor the code's two-way split fits
(no positive headroom, or one of the two parts fails its capacity test),
admission reports capacity exceeded and the store is unchanged: the
operation returns no new store. -/
theorem c4_reject (store : List FileRecord) (nm d : List Char)
    (h1 : ¬ jlen (stringifyList (store ++ [⟨nm, d⟩])) ≤ 1000000)
    (h2 : ¬ (0 < 1000000 - jlen (stringifyList store) ∧
      jlen (stringifyList (store ++
        [⟨nm, utf16Take ((1000000 - jlen (stringifyList store)) / 2) d⟩])) ≤ 1000000 ∧
      jlen (stringifyList (getCurrentOverflow store ++
        [⟨nm, utf16Drop ((1000000 - jlen (stringifyList store)) / 2) d⟩])) ≤ 1000000)) :
    processFile store nm d = none := by
  rw [processFile]
  dsimp only
  rw [if_neg h1]
  by_cases g1 : 0 < 1000000 - jlen (stringifyList store)
  · rw [if_pos g1]
    by_cases g2 : jlen (stringifyList (store ++
        [⟨nm, utf16Take ((1000000 - jlen (stringifyList store)) / 2) d⟩])) ≤ 1000000
    · rw [if_pos g2]
      rw [if_neg (fun g3 => h2 ⟨g1, g2, g3⟩)]
    · rw [if_neg g2]
  · rw [if_neg g1]

/-- C4 witness: the spec's near-full scenario — a store serializing to
999990 characters rejects a 50-character record, whose halved split also
fails its main-fit test. -/
theorem c4_reject_witness :
    processFile nearFullStore ['c'] (List.replicate 50 'b') = none := by
  have hlen : jlen (stringifyList nearFullStore) = 999990 := by
    rw [nearFullStore, jlen_stringifyList_cons, szTotal_cons, szTotal_nil,
      jlen_stringifyRecord_repl 'a' 999966 (by decide) (by decide)]
  apply c4_reject
  · rw [nearFullStore]
    simp only [List.cons_append, List.nil_append]
    rw [jlen_stringifyList_cons, szTotal_cons, szTotal_cons, szTotal_nil,
      jlen_stringifyRecord_repl 'a' 999966 (by decide) (by decide),
      jlen_stringifyRecord_repl 'c' 50 (by decide) (by decide)]
    omega
  · rintro ⟨g1, g2, g3⟩
    rw [hlen] at g2
    rw [show (1000000 - 999990) / 2 = 5 from rfl] at g2
    rw [utf16Take_replicate _ _ _ (by decide)] at g2
    rw [show min 5 50 = 5 from rfl] at g2
    rw [nearFullStore] at g2
    simp only [List.cons_append, List.nil_append] at g2
    rw [jlen_stringifyList_cons, szTotal_cons, szTotal_cons, szTotal_nil,
      jlen_stringifyRecord_repl 'a' 999966 (by decide) (by decide),
      jlen_stringifyRecord_repl 'c' 5 (by decide) (by decide)] at g2
    omega

/-- C5 counterexample: in `init`, a main slot that parses successfully is
kept in the store even when the overflow slot fails to parse — the store
is not reset to empty, refuting the claim as stated. -/
theorem c5_counterexample :
    parseRecords ['x'] = none ∧
      initLoad (some (stringifyList [exRec])) (some ['x']) = [exRec] ∧
      initLoad (some (stringifyList [exRec])) (some ['x']) ≠ [] := by decide

/-- C5 amended: in `updateView` a parse failure of either slot resets the
store to empty; in `init` a parse failure of the main slot leaves the
store empty, but a failure of only the overflow slot keeps the main
slot's parsed records. Failures are caught (logged), not raised. -/
theorem c5_amended (mt ot : List Char) (l : List FileRecord)
    (hmt : parseRecords mt = some l) (hmne : mt ≠ [])
    (hot : parseRecords ot = none) (hone : ot ≠ []) :
    updateViewLoad (some mt) (some ot) = [] ∧
      updateViewLoad (some ot) (some mt) = [] ∧
      initLoad (some mt) (some ot) = l ∧
      initLoad (some ot) (some mt) = [] := by
  have tmt : truthy (some mt) = true := by
    simp [truthy, List.isEmpty_iff, hmne]
  have tot : truthy (some ot) = true := by
    simp [truthy, List.isEmpty_iff, hone]
  refine ⟨?_, ?_, ?_, ?_⟩
  · rw [updateViewLoad, if_pos tmt]
    simp only [Option.getD_some]
    rw [hmt]
    dsimp only
    rw [if_pos tot]
    rw [hot]
  · rw [updateViewLoad, if_pos tot]
    simp only [Option.getD_some]
    rw [hot]
  · rw [initLoad, if_pos tmt]
    simp only [Option.getD_some]
    rw [hmt]
    dsimp only
    rw [if_pos tot]
    rw [hot]
  · rw [initLoad, if_pos tot]
    simp only [Option.getD_some]
    rw [hot]

/-- C5 witness: a one-record main text with garbage overflow text. -/
theorem c5_amended_witness :
    updateViewLoad (some (stringifyList [exRec])) (some ['x']) = [] ∧
      updateViewLoad (some ['x']) (some (stringifyList [exRec])) = [] ∧
      initLoad (some (stringifyList [exRec])) (some ['x']) = [exRec] ∧
      initLoad (some ['x']) (some (stringifyList [exRec])) = [] :=
  c5_amended (stringifyList [exRec]) ['x'] [exRec]
    (by decide) (by decide) (by decide) (by decide)

/-- C2 counterexample: two same-name records well under capacity are
merged by `getOutputs`, so the load of the serialized output is one
two-character record, not the two original records. -/
theorem c2_counterexample :
    jlen (stringifyList exDup) ≤ 1000000 ∧
      loadOutputs (getOutputs exDup) ≠ exDup := by decide

/-- C2 amended: for every sequence of records with pairwise distinct names
whose serialized form fits the main capacity, loading the output of
`getOutputs` — parsing the main slot, then concatenating the parsed
overflow slot — reproduces the records in order. -/
theorem c2_roundtrip (l : List FileRecord)
    (hd : l.Pairwise (fun a b => a.name ≠ b.name))
    (hcap : jlen (stringifyList l) ≤ 1000000) :
    loadOutputs (getOutputs l) = l :=
  roundtrip_core l hd hcap

/-- C2 witness: two distinct-name records round-trip unchanged. -/
theorem c2_roundtrip_witness :
    loadOutputs (getOutputs [⟨['a'], ['x']⟩, ⟨['c'], ['y']⟩])
      = [⟨['a'], ['x']⟩, ⟨['c'], ['y']⟩] :=
  c2_roundtrip [⟨['a'], ['x']⟩, ⟨['c'], ['y']⟩] (by decide) (by decide)

/-- C9 amended: the persisted overflow value is `undefined` exactly when
the merge phase leaves no must-remain-split records; when it leaves some,
the overflow value is always present — even if the greedy distribution
spills nothing, in which case it is the serialization of the empty list. -/
theorem c9_overflow_iff (l : List FileRecord) :
    (getOutputs l).uploadedFileOverflow = none ↔
      (mergePhase (groupByName l)).2 = [] := by
  rw [getOutputs]
  by_cases h : (mergePhase (groupByName l)).2.isEmpty
  · rw [if_pos h]
    simp only [List.isEmpty_iff] at h
    simp [h]
  · rw [if_neg h]
    simp only [List.isEmpty_iff] at h
    simp [h]

/-- Evaluation of `getOutputs` on `bigSingle`: the single record fails the
merge-phase fit test (its array text is 1000001 characters), yet the
greedy packer — whose running length counts one separator per record but
not the two array brackets — accepts it into the main field, spilling
nothing, and the overflow value becomes the empty array text. -/
theorem getOutputs_bigSingle :
    getOutputs bigSingle = ⟨stringifyList bigSingle, some (stringifyList [])⟩ := by
  have hsz : jlen (stringifyRecord (⟨['a'], List.replicate 999977 'b'⟩ : FileRecord))
      = 999999 := by
    rw [jlen_stringifyRecord_repl 'a' 999977 (by decide) (by decide)]
  have hgb : groupByName bigSingle
      = [(['a'], [⟨['a'], List.replicate 999977 'b'⟩])] := rfl
  have hstep : mergeStep ([], []) (['a'], [⟨['a'], List.replicate 999977 'b'⟩])
      = ([], [⟨['a'], List.replicate 999977 'b'⟩]) := by
    rw [mergeStep]
    dsimp only
    rw [if_neg (by
      simp only [List.length_cons, List.length_nil]
      omega)]
    rw [if_neg (by
      simp only [List.nil_append, List.headD_cons]
      rw [jlen_stringifyList_cons, szTotal_cons, szTotal_nil, hsz]
      omega)]
    rw [List.headD_cons, List.nil_append]
  have hmp : mergePhase (groupByName bigSingle)
      = ([], [⟨['a'], List.replicate 999977 'b'⟩]) := by
    rw [hgb, mergePhase, List.foldl_cons, List.foldl_nil, hstep]
  have hpack : packFold ([⟨['a'], List.replicate 999977 'b'⟩] : List FileRecord) 0
      = ([⟨['a'], List.replicate 999977 'b'⟩], []) := by
    rw [packFold]
    dsimp only
    rw [if_pos (by rw [hsz])]
    rfl
  rw [getOutputs, hmp]
  dsimp only
  rw [if_neg (by
    simp only [List.isEmpty_cons]
    exact Bool.false_ne_true)]
  rw [List.nil_append]
  rw [hpack]
  rfl

/-- C1: evaluation at the failing input — `getOutputs` emits a main slot
text of 1000001 characters, one over the 1000000-character limit the
claim says is never exceeded. -/
theorem c1_code_eval :
    1000000 < jlen (getOutputs bigSingle).uploadedFile ∧
      jlen (getOutputs bigSingle).uploadedFile = 1000001 := by
  rw [getOutputs_bigSingle]
  dsimp only
  rw [bigSingle, jlen_stringifyList_cons, szTotal_cons, szTotal_nil,
    jlen_stringifyRecord_repl 'a' 999977 (by decide) (by decide)]
  omega

/-- C9 counterexample: at `bigSingle` the greedy path spills no record,
yet the persisted overflow value is the serialization of the empty list,
not `undefined`. -/
theorem c9_counterexample :
    (getOutputs bigSingle).uploadedFileOverflow = some (stringifyList []) ∧
      (getOutputs bigSingle).uploadedFileOverflow ≠ none := by
  rw [getOutputs_bigSingle]
  dsimp only
  exact ⟨rfl, Option.some_ne_none _⟩

/-- C8 amended: for every record set whose serialized form fits the main
capacity, serializing, loading the result, and serializing again yields
the same two-slot output as serializing once. -/
theorem c8_idempotent (l : List FileRecord)
    (hcap : jlen (stringifyList l) ≤ 1000000) :
    getOutputs (loadOutputs (getOutputs l)) = getOutputs l :=
  idem_core l hcap

/-- C8 witness: a one-record store re-serializes to the same output. -/
theorem c8_idempotent_witness :
    getOutputs (loadOutputs (getOutputs [⟨['a'], ['x']⟩]))
      = getOutputs [⟨['a'], ['x']⟩] :=
  c8_idempotent [⟨['a'], ['x']⟩] (by decide)

theorem updateViewLoad_stringify_two (a b : List FileRecord) :
    updateViewLoad (some (stringifyList a)) (some (stringifyList b)) = a ++ b := by
  rw [updateViewLoad]
  rw [if_pos (by rw [stringifyList]; rfl)]
  simp only [Option.getD_some]
  rw [parseRecords_stringifyList]
  dsimp only
  rw [if_pos (by rw [stringifyList]; rfl)]
  rw [parseRecords_stringifyList]

theorem szR_exG : jlen (stringifyRecord exG) = 1000000 := by
  rw [exG, jlen_stringifyRecord_repl 'g' 999978 (by decide) (by decide)]

theorem szR_exH : jlen (stringifyRecord exH) = 500011 := by
  rw [exH, jlen_stringifyRecord_repl 'h' 499989 (by decide) (by decide)]

theorem jlen_stringifyRecord_parts (nm d1 d2 : List Char) :
    jlen (stringifyRecord ⟨nm, (List.map FileRecord.data
        [(⟨nm, d1⟩ : FileRecord), ⟨nm, d2⟩]).flatten⟩)
      = 21 + jlen (escapeString nm) + (jlen (escapeString d1) + jlen (escapeString d2)) := by
  rw [jlen_stringifyRecord]
  simp only [List.map_cons, List.map_nil, List.flatten_cons, List.flatten_nil,
    List.append_nil, escapeString_append, jlen_append]

theorem szR_mergedH :
    jlen (stringifyRecord ⟨['h'], (List.map FileRecord.data [exH, exH]).flatten⟩)
      = 1000000 := by
  rw [show exH = (⟨['h'], List.replicate 499989 'b'⟩ : FileRecord) from rfl]
  rw [jlen_stringifyRecord_parts]
  rw [escapeString_replicate _ _ (by decide)]
  rw [jlen_replicate _ _ (by decide)]
  rw [show escapeString ['h'] = ['h'] from by decide]
  rw [show jlen ['h'] = 1 from by decide]

theorem groupByName_exIdem :
    groupByName exIdem = [(['g'], [exG]), (['h'], [exH, exH])] := rfl

theorem mergeStep_exG :
    mergeStep ([], []) (['g'], [exG]) = ([], [exG]) := by
  rw [mergeStep]
  dsimp only
  rw [if_neg (by simp only [List.length_cons, List.length_nil]; omega)]
  rw [if_neg (by
    simp only [List.nil_append, List.headD_cons]
    rw [jlen_stringifyList_cons, szTotal_cons, szTotal_nil, szR_exG]
    omega)]
  rw [List.headD_cons, List.nil_append]

theorem mergeStep_exH :
    mergeStep ([], [exG]) (['h'], [exH, exH]) = ([], [exG, exH, exH]) := by
  rw [mergeStep]
  dsimp only
  rw [if_pos (by simp only [List.length_cons, List.length_nil]; omega)]
  rw [if_neg (by
    simp only [List.nil_append]
    rw [jlen_stringifyList_cons, szTotal_cons, szTotal_nil, szR_mergedH]
    omega)]
  rfl

theorem mergePhase_exIdem : mergePhase (groupByName exIdem) = ([], [exG, exH, exH]) := by
  rw [groupByName_exIdem, mergePhase, List.foldl_cons, List.foldl_cons, List.foldl_nil,
    mergeStep_exG, mergeStep_exH]

theorem packFold_H_one : packFold [exH] (0 + 500011 + 1) = ([], [exH]) := by
  rw [packFold]
  dsimp only
  rw [szR_exH]
  rw [if_neg (by omega : ¬ (0 + 500011 + 1 + 500011 + 1 ≤ 1000000))]
  rfl

theorem packFold_H_two : packFold [exH, exH] 0 = ([exH], [exH]) := by
  rw [packFold]
  dsimp only
  rw [szR_exH]
  rw [if_pos (by omega : 0 + 500011 + 1 ≤ 1000000)]
  rw [packFold_H_one]

theorem packFold_pass1 : packFold [exG, exH, exH] 0 = ([exH], [exG, exH]) := by
  rw [packFold]
  dsimp only
  rw [szR_exG]
  rw [if_neg (by omega : ¬ (0 + 1000000 + 1 ≤ 1000000))]
  rw [packFold_H_two]

theorem getOutputs_exIdem :
    getOutputs exIdem = ⟨stringifyList [exH], some (stringifyList [exG, exH])⟩ := by
  rw [getOutputs, mergePhase_exIdem]
  dsimp only
  rw [if_neg (by simp only [List.isEmpty_cons]; exact Bool.false_ne_true)]
  rw [List.nil_append]
  rw [packFold_pass1]

theorem groupByName_pass2 :
    groupByName [exH, exG, exH] = [(['h'], [exH, exH]), (['g'], [exG])] := rfl

theorem mergeStep_pass2a :
    mergeStep ([], []) (['h'], [exH, exH]) = ([], [exH, exH]) := by
  rw [mergeStep]
  dsimp only
  rw [if_pos (by simp only [List.length_cons, List.length_nil]; omega)]
  rw [if_neg (by
    simp only [List.nil_append]
    rw [jlen_stringifyList_cons, szTotal_cons, szTotal_nil, szR_mergedH]
    omega)]
  rw [List.nil_append]

theorem mergeStep_pass2b :
    mergeStep ([], [exH, exH]) (['g'], [exG]) = ([], [exH, exH, exG]) := by
  rw [mergeStep]
  dsimp only
  rw [if_neg (by simp only [List.length_cons, List.length_nil]; omega)]
  rw [if_neg (by
    simp only [List.nil_append, List.headD_cons]
    rw [jlen_stringifyList_cons, szTotal_cons, szTotal_nil, szR_exG]
    omega)]
  rw [List.headD_cons]
  rfl

theorem mergePhase_pass2 :
    mergePhase (groupByName [exH, exG, exH]) = ([], [exH, exH, exG]) := by
  rw [groupByName_pass2, mergePhase, List.foldl_cons, List.foldl_cons, List.foldl_nil,
    mergeStep_pass2a, mergeStep_pass2b]

theorem packFold_G_one : packFold [exG] (0 + 500011 + 1) = ([], [exG]) := by
  rw [packFold]
  dsimp only
  rw [szR_exG]
  rw [if_neg (by omega : ¬ (0 + 500011 + 1 + 1000000 + 1 ≤ 1000000))]
  rfl

theorem packFold_HG : packFold [exH, exG] (0 + 500011 + 1) = ([], [exH, exG]) := by
  rw [packFold]
  dsimp only
  rw [szR_exH]
  rw [if_neg (by omega : ¬ (0 + 500011 + 1 + 500011 + 1 ≤ 1000000))]
  rw [packFold_G_one]

theorem packFold_pass2 : packFold [exH, exH, exG] 0 = ([exH], [exH, exG]) := by
  rw [packFold]
  dsimp only
  rw [szR_exH]
  rw [if_pos (by omega : 0 + 500011 + 1 ≤ 1000000)]
  rw [packFold_HG]

theorem getOutputs_pass2 :
    getOutputs [exH, exG, exH] = ⟨stringifyList [exH], some (stringifyList [exH, exG])⟩ := by
  rw [getOutputs, mergePhase_pass2]
  dsimp only
  rw [if_neg (by simp only [List.isEmpty_cons]; exact Bool.false_ne_true)]
  rw [List.nil_append]
  rw [packFold_pass2]

/-- C8 counterexample: on `exIdem` the first serialization packs the split
pair around the oversized record, the loaded store reorders the groups,
and the second serialization emits the overflow records in a different
order — `Serialize (Load (Serialize x))` differs from `Serialize x`. -/
theorem c8_counterexample :
    getOutputs (loadOutputs (getOutputs exIdem)) ≠ getOutputs exIdem := by
  rw [getOutputs_exIdem]
  rw [loadOutputs]
  dsimp only
  rw [updateViewLoad_stringify_two]
  rw [show ([exH] ++ [exG, exH] : List FileRecord) = [exH, exG, exH] from rfl]
  rw [getOutputs_pass2]
  intro heq
  have h1 : some (stringifyList [exH, exG]) = some (stringifyList [exG, exH]) :=
    congrArg IOutputs.uploadedFileOverflow heq
  have h2 : stringifyList [exH, exG] = stringifyList [exG, exH] :=
    Option.some.inj h1
  have h3 := stringifyList_injective _ _ h2
  have h4 : exH = exG := ((List.cons.injEq _ _ _ _).mp h3).1
  have h5 : exH.name = exG.name := congrArg FileRecord.name h4
  exact absurd h5 (by decide)
